import Mathlib

/-!
Verification of the wnfs-fuse core against its specification.

A shallow embedding of the repository's four source files:
* `src/blockstore.rs` — `SqliteBlockStore`: content-addressed block storage
  with an alias table (the sqlite database is modelled as two association
  lists, newest binding first, which matches upsert semantics).
* `src/fs.rs` — `Wnfs`: the root manager (open / flush / read paths).
* `src/fuse.rs` — `Inodes`, `node_to_attr` and the FUSE request handlers.

External crates (the `wnfs` versioned tree, the Blake3 hash, dag-cbor
(de)serialization) are capability boundaries: they are passed in as explicit
function parameters, so every theorem quantifies over their behaviour unless
a hypothesis pins it down. Machine integers (`u64`, `usize`) never approach
their bounds in the modelled code paths, so they are modelled as `Nat`.
-/

/-! ## Association-list primitives

The sqlite tables and the Rust `HashMap`s are modelled as association lists
where an insert conses at the head and lookup takes the first match, which
gives exactly the overwrite semantics of `HashMap::insert` / sqlite upsert. -/

def alookup {α β : Type} [DecidableEq α] : List (α × β) → α → Option β
  | [], _ => none
  | (k, v) :: rest, a => if k = a then some v else alookup rest a

@[simp] theorem alookup_nil {α β : Type} [DecidableEq α] (a : α) :
    alookup ([] : List (α × β)) a = none := rfl

@[simp] theorem alookup_cons {α β : Type} [DecidableEq α] (k : α) (v : β) (l : List (α × β)) (a : α) :
    alookup ((k, v) :: l) a = if k = a then some v else alookup l a := rfl

/-- Insert a binding only when the key is absent (sqlite block insert is
keyed by the content address: re-inserting an existing block is a no-op). -/
def insertIfAbsent {α β : Type} [DecidableEq α] (l : List (α × β)) (k : α) (v : β) :
    List (α × β) :=
  match alookup l k with
  | some _ => l
  | none => (k, v) :: l

theorem alookup_insertIfAbsent_preserved {α β : Type} [DecidableEq α]
    (l : List (α × β)) (k : α) (v : β) (a : α) (w : β)
    (h : alookup l a = some w) : alookup (insertIfAbsent l k v) a = some w := by
  unfold insertIfAbsent
  cases hk : alookup l k with
  | some _ => simpa using h
  | none =>
    simp only [alookup_cons]
    rcases eq_or_ne k a with rfl | hne
    · rw [h] at hk; cases hk
    · simp [hne, h]

theorem alookup_insertIfAbsent_self {α β : Type} [DecidableEq α]
    (l : List (α × β)) (k : α) (v : β) :
    (alookup (insertIfAbsent l k v) k).isSome := by
  unfold insertIfAbsent
  cases hk : alookup l k with
  | some _ => simp [hk]
  | none => simp

/-! ## `src/blockstore.rs` — the content-addressed store -/

/-- Raw block payloads (`Vec<u8>`). -/
abbrev Bytes := List Nat

/-- The two codecs the program uses (`libipld::IpldCodec` members). -/
inductive IpldCodec
  | dagCbor
  | raw
deriving DecidableEq

/-- Content address: `Cid::new(Version::V1, codec.into(), hash)` — the
version tag, the codec tag and the digest of the payload. -/
structure Cid where
  version : Nat
  codec : IpldCodec
  hash : Bytes
deriving DecidableEq

/-- `SqliteBlockStore`: the sqlite database holds the content-addressed
block table and the name→cid alias table. -/
structure SqliteBlockStore where
  blocks : List (Cid × Bytes)
  aliases : List (String × Cid)
deriving DecidableEq

/-- `put_block`: digest the bytes (`H` stands for the external
`Code::Blake3_256.digest`), build the v1 cid, insert the block keyed by its
cid (a re-insert of a present cid is a no-op), return the cid. -/
def SqliteBlockStore.put_block (H : Bytes → Bytes) (st : SqliteBlockStore)
    (bytes : Bytes) (codec : IpldCodec) : SqliteBlockStore × Cid :=
  let cid : Cid := ⟨1, codec, H bytes⟩
  ({ st with blocks := insertIfAbsent st.blocks cid bytes }, cid)

/-- `store.alias(name, Some(cid))`: upsert the mutable alias pointer. -/
def SqliteBlockStore.aliasSet (st : SqliteBlockStore) (name : String) (cid : Cid) :
    SqliteBlockStore :=
  { st with aliases := (name, cid) :: st.aliases }

/-- `resolve_alias`. -/
def SqliteBlockStore.resolve_alias (st : SqliteBlockStore) (name : String) : Option Cid :=
  alookup st.aliases name

/-- `get_block` (the `wnfs_common::BlockStore` impl). -/
def SqliteBlockStore.get_block (st : SqliteBlockStore) (cid : Cid) : Option Bytes :=
  alookup st.blocks cid

/-! ## `src/fs.rs` — the root record -/

/-- `PrivateRoot { forest_cid, revision_ref }`. The `RevisionRef` is opaque
external data; it is modelled as a number. -/
structure PrivateRoot where
  forest_cid : Cid
  revision_ref : Nat
deriving DecidableEq

/-- `format!("{}{}", PRIVATE_ROOT_PREFIX, name)`. -/
def private_root_alias (name : String) : String := "private-root:" ++ name

/-- `put_serializable_with_alias`: serialize (`enc` stands for the external
`serde_ipld_dagcbor::to_vec`), `put_block` with the dag-cbor codec, then
point the alias at the fresh cid. -/
def put_serializable_with_alias (H : Bytes → Bytes) (enc : PrivateRoot → Bytes)
    (st : SqliteBlockStore) (name : String) (v : PrivateRoot) :
    SqliteBlockStore × Cid :=
  let (st1, cid) := st.put_block H (enc v) IpldCodec.dagCbor
  (st1.aliasSet name cid, cid)

/-- `get_deserializable_from_alias`: resolve the alias (`Err("Not found")`
when absent), fetch the block (`Err("Block not found")` when absent), decode
(`dec` stands for the external dag-cbor decoder; `Err` when it fails). -/
def get_deserializable_from_alias (dec : Bytes → Option PrivateRoot)
    (st : SqliteBlockStore) (name : String) : Except Unit PrivateRoot :=
  match st.resolve_alias name with
  | none => .error ()
  | some cid =>
    match st.get_block cid with
    | none => .error ()
    | some bytes =>
      match dec bytes with
      | none => .error ()
      | some v => .ok v

/-! ## `src/fs.rs` — `Wnfs::open_from_path` and `Wnfs::flush`

The external `wnfs` crate's tree operations appear as parameters:
`createPrivateDir` stands for `create_private_dir` (lines 205-227: builds a
fresh forest and directory, publishes them through `BlockStore::put_block`,
returns the new `PrivateRoot`), and `loadDir` stands for the forest load /
`get_multivalue` / `search_latest` / `as_dir` tail (lines 78-89); a
directory handle is its metadata plus its child names. -/

/-- Node metadata (`wnfs_common::Metadata`): optional created/modified
timestamps, measured in time units since the Unix epoch. -/
structure Metadata where
  modified : Option Nat
  created : Option Nat
deriving DecidableEq

/-- A directory handle as the adapter observes it: metadata plus the list
of child names (`PrivateDirectory::entries`). -/
structure DirHandle where
  metadata : Metadata
  entries : List String
deriving DecidableEq

/-- `Wnfs::open_from_path` (lines 32-98): try to load+decode the root record
from the alias; on ANY error (alias absent, block absent, or decode failure)
create a fresh private dir and publish a new root record under the alias;
then resolve the directory snapshot. Returns the result and the store. -/
def open_from_path (H : Bytes → Bytes) (enc : PrivateRoot → Bytes)
    (dec : Bytes → Option PrivateRoot)
    (createPrivateDir : SqliteBlockStore → SqliteBlockStore × PrivateRoot)
    (loadDir : SqliteBlockStore → PrivateRoot → Except Unit DirHandle)
    (st : SqliteBlockStore) (name : String) :
    Except Unit (PrivateRoot × DirHandle) × SqliteBlockStore :=
  let aliasName := private_root_alias name
  let loaded : PrivateRoot × SqliteBlockStore :=
    match get_deserializable_from_alias dec st aliasName with
    | .ok root => (root, st)
    | .error _ =>
      let (st1, root) := createPrivateDir st
      let (st2, _cid) := put_serializable_with_alias H enc st1 aliasName root
      (root, st2)
  match loadDir loaded.2 loaded.1 with
  | .error _ => (.error (), loaded.2)
  | .ok dir => (.ok (loaded.1, dir), loaded.2)

/-- A single store mutation: the only two kinds the program ever performs. -/
inductive StoreOp
  | putBlock (cid : Cid) (bytes : Bytes)
  | setAlias (name : String) (cid : Cid)
deriving DecidableEq

def applyOp (st : SqliteBlockStore) : StoreOp → SqliteBlockStore
  | .putBlock cid bytes => { st with blocks := insertIfAbsent st.blocks cid bytes }
  | .setAlias name cid => st.aliasSet name cid

def applyOps (st : SqliteBlockStore) (ops : List StoreOp) : SqliteBlockStore :=
  ops.foldl applyOp st

/-- `Wnfs::flush` (lines 100-126) written directly as the code sequences its
store calls: `private_dir.store` publishes the snapshot's modified content
blocks through `BlockStore::put_block` (the external tree holds only that
capability, so its effect is the list `contentPuts` of (bytes, codec) puts,
and it yields the new revision pointer), then `put_async_serializable`
publishes the serialized forest, then `put_serializable_with_alias`
publishes the new root record and finally repoints the alias. -/
def flush (H : Bytes → Bytes) (enc : PrivateRoot → Bytes) (name : String)
    (contentPuts : List (Bytes × IpldCodec)) (revision : Nat) (forestBytes : Bytes)
    (st : SqliteBlockStore) : SqliteBlockStore × Cid :=
  let st1 := contentPuts.foldl (fun s p => (s.put_block H p.1 p.2).1) st
  let (st2, forest_cid) := st1.put_block H forestBytes IpldCodec.dagCbor
  let root : PrivateRoot := ⟨forest_cid, revision⟩
  put_serializable_with_alias H enc st2 (private_root_alias name) root

/-- The same `flush` as its sequence of store mutations, in execution
order: the content puts, the forest block put, the root record block put,
and last the alias repoint. -/
def flushOps (H : Bytes → Bytes) (enc : PrivateRoot → Bytes) (name : String)
    (contentPuts : List (Bytes × IpldCodec)) (revision : Nat) (forestBytes : Bytes) :
    List StoreOp :=
  let forestCid : Cid := ⟨1, IpldCodec.dagCbor, H forestBytes⟩
  let recBytes : Bytes := enc ⟨forestCid, revision⟩
  let recCid : Cid := ⟨1, IpldCodec.dagCbor, H recBytes⟩
  contentPuts.map (fun p => StoreOp.putBlock ⟨1, p.2, H p.1⟩ p.1)
    ++ [StoreOp.putBlock forestCid forestBytes,
        StoreOp.putBlock recCid recBytes,
        StoreOp.setAlias (private_root_alias name) recCid]

/-! ## `src/fuse.rs` — attributes and the inode table -/

def ROOT_INO : Nat := 1
def BLOCK_SIZE : Nat := 512
def UNIX_EPOCH : Nat := 0

inductive FileType
  | regularFile
  | directory
deriving DecidableEq

/-- A `wnfs::private::PrivateNode` as the adapter observes it through the
external capability interface: metadata and kind for both kinds, the
tree-reported upper-bound content size and the content bytes for files
(`get_content_size_upper_bound` / `read_chunk`), the child-name listing for
directories (`entries`). -/
inductive PrivateNode
  | file (metadata : Metadata) (size_upper_bound : Nat) (content : Bytes)
  | dir (metadata : Metadata) (entries : List String)
deriving DecidableEq

/-- `fuser::FileAttr` with times measured in units since the Unix epoch. -/
structure FileAttr where
  ino : Nat
  size : Nat
  blocks : Nat
  nlink : Nat
  perm : Nat
  uid : Nat
  gid : Nat
  rdev : Nat
  flags : Nat
  blksize : Nat
  kind : FileType
  atime : Nat
  mtime : Nat
  ctime : Nat
  crtime : Nat
deriving DecidableEq

/-- `node_to_attr` (fuse.rs lines 317-364). -/
def node_to_attr (ino : Nat) (node : PrivateNode) : FileAttr :=
  let metadata := match node with
    | .file md _ _ => md
    | .dir md _ => md
  let kind := match node with
    | .file _ _ _ => FileType.regularFile
    | .dir _ _ => FileType.directory
  let perm := match node with
    | .file _ _ _ => 0o444
    | .dir _ _ => 0o555
  let size := match node with
    | .file _ sz _ => sz
    | .dir _ _ => 0
  let nlink := match node with
    | .file _ _ _ => 1
    | .dir _ _ => 2
  let blocks := size / BLOCK_SIZE
  let mtime := metadata.modified.getD UNIX_EPOCH
  let ctime := metadata.created.getD UNIX_EPOCH
  { ino := ino, size := size, blocks := blocks, nlink := nlink, perm := perm,
    uid := 1000, gid := 1000, rdev := 0, flags := 0, blksize := BLOCK_SIZE,
    kind := kind, atime := mtime, mtime := mtime, ctime := ctime, crtime := ctime }

/-- An inode-table entry. -/
structure Inode where
  path_segments : List String
  ino : Nat
deriving DecidableEq

/-- The session-local inode index (`Inodes`): forward map, reverse map and
the sequential counter. -/
structure Inodes where
  inodes : List (Nat × Inode)
  by_path : List (List String × Nat)
  counter : Nat
deriving DecidableEq

/-- `Inodes::push`: bump the counter, record the entry in both maps,
return the fresh number. -/
def Inodes.push (s : Inodes) (path_segments : List String) : Inodes × Nat :=
  let counter := s.counter + 1
  let ino := counter
  let inode : Inode := ⟨path_segments, ino⟩
  ({ inodes := (ino, inode) :: s.inodes,
     by_path := (inode.path_segments, ino) :: s.by_path,
     counter := counter }, ino)

/-- `Inodes::get`. -/
def Inodes.get (s : Inodes) (ino : Nat) : Option Inode :=
  alookup s.inodes ino

/-- `Inodes::get_path_segments`. -/
def Inodes.get_path_segments (s : Inodes) (ino : Nat) : Option (List String) :=
  (s.get ino).map Inode.path_segments

/-- `Inodes::get_or_push`: reuse the existing number for a seen path, push
otherwise; the final `self.get(id).unwrap()` cannot fail on a well-formed
table, and its `getD` fallback models the panic case as a dummy entry. -/
def Inodes.get_or_push (s : Inodes) (path : List String) : Inodes × Inode :=
  let id_state : Nat × Inodes :=
    match alookup s.by_path path with
    | some id => (id, s)
    | none =>
      let (s', id) := s.push path
      (id, s')
  (id_state.2, (id_state.2.get id_state.1).getD ⟨path, id_state.1⟩)

/-- `WnfsFuse::new`: a default table with the root inode pre-registered for
the empty path (it receives number 1 = `ROOT_INO`). -/
def WnfsFuse.newInodes : Inodes :=
  (Inodes.push ⟨[], [], 0⟩ []).1

/-- `push_segment`. -/
def push_segment (path_segments : List String) (name : String) : List String :=
  path_segments ++ [name]

/-! ## `src/fuse.rs` — the request handlers

`WnfsModel` is the `Wnfs` handle as the handlers observe it: `root` models
`Wnfs::private_root()` (the in-memory root directory handle) and `getNode`
models `Wnfs::get_node` (traversal through the external tree; `Ok(None)`
when the path misses, `Err` when storage or decryption fails). Each handler
takes and returns the inode table explicitly in place of `&mut self`; the
kernel reply is the return value, with the kernel-side reply buffer
unbounded. -/

structure WnfsModel where
  root : DirHandle
  getNode : List String → Except Unit (Option PrivateNode)

/-- The only `libc` error codes relevant here: `ENOENT` ("not found", the
one the adapter replies) and `ENOSYS` ("not supported"). -/
inductive Errno
  | enoent
  | enosys
deriving DecidableEq

inductive EntryReply
  | entry (attr : FileAttr)
  | error (e : Errno)
deriving DecidableEq

inductive ReadReply
  | data (bytes : Bytes)
  | error (e : Errno)
deriving DecidableEq

inductive WriteReply
  | written (size : Nat)
  | error (e : Errno)
deriving DecidableEq

/-- `Filesystem::lookup` for `WnfsFuse` (lines 111-135): resolve the parent
path, extend it with `name`, `get_or_push` the child inode FIRST, then
consult the tree; reply with attributes or `ENOENT`. -/
def WnfsFuse.lookup (w : WnfsModel) (st : Inodes) (parent : Nat) (name : String) :
    EntryReply × Inodes :=
  match st.get_path_segments parent with
  | none => (.error .enoent, st)
  | some path_segments =>
    let path := push_segment path_segments name
    let (st', inode) := st.get_or_push path
    match w.getNode path with
    | .ok (some node) => (.entry (node_to_attr inode.ino node), st')
    | .ok none => (.error .enoent, st')
    | .error _ => (.error .enoent, st')

/-- `PrivateFile::read_chunk`. Modelled from the spec: the external `wnfs`
crate's chunked file read, absent from `src/`, "returns the byte range
`[offset, offset+size)` of file content". -/
def read_chunk (content : Bytes) (offset size : Nat) : Bytes :=
  (content.drop offset).take size

/-- `Wnfs::read_file_chunk` (fs.rs lines 171-186): traverse to the node;
a traversal error propagates, a miss is `Err("Not found")`, a directory is
`Err("Is a directory, not a file")`, a file yields its chunk. (The handler
in fuse.rs invokes this chunked read under the name `read_file_at`.) -/
def Wnfs.read_file_chunk (w : WnfsModel) (path_segments : List String)
    (offset size : Nat) : Except Unit Bytes :=
  match w.getNode path_segments with
  | .error _ => .error ()
  | .ok none => .error ()
  | .ok (some (.dir _ _)) => .error ()
  | .ok (some (.file _ _ content)) => .ok (read_chunk content offset size)

/-- `Filesystem::read` for `WnfsFuse` (lines 160-193): unknown inode or any
chunk-read failure replies `ENOENT`; success replies the data. The kernel
always sends a non-negative offset, so the `offset as usize` cast is a
`Nat`. -/
def WnfsFuse.read (w : WnfsModel) (st : Inodes) (ino offset size : Nat) : ReadReply :=
  match st.get_path_segments ino with
  | none => .error .enoent
  | some path_segments =>
    match Wnfs.read_file_chunk w path_segments offset size with
    | .ok data => .data data
    | .error _ => .error .enoent

/-- One entry the readdir loop accumulates: `(ino, FileType, name)`. -/
structure DirEntry where
  ino : Nat
  kind : FileType
  name : String
deriving DecidableEq

/-- One entry as handed to `reply.add(ino, i + 1, kind, name)`: the inode,
the next-entry offset cookie, the kind and the name. -/
structure DirReplyEntry where
  ino : Nat
  next_offset : Nat
  kind : FileType
  name : String
deriving DecidableEq

inductive ReaddirReply
  | entries (es : List DirReplyEntry)
  | error (e : Errno)
deriving DecidableEq

/-- The child loop of `readdir` (lines 230-248): for each child name, fetch
the node at the extended path; a directory or file gets an inode via
`get_or_push` and an entry with its kind; a miss or error is skipped
silently. -/
def readdirChildren (w : WnfsModel) (path_segments : List String) :
    List String → Inodes → List DirEntry × Inodes
  | [], st => ([], st)
  | name :: rest, st =>
    let path := push_segment path_segments name
    match w.getNode path with
    | .ok (some (.dir _md _es)) =>
      let (st', inode) := st.get_or_push path
      let (tail, st'') := readdirChildren w path_segments rest st'
      (⟨inode.ino, FileType.directory, name⟩ :: tail, st'')
    | .ok (some (.file _md _sz _content)) =>
      let (st', inode) := st.get_or_push path
      let (tail, st'') := readdirChildren w path_segments rest st'
      (⟨inode.ino, FileType.regularFile, name⟩ :: tail, st'')
    | .ok none => readdirChildren w path_segments rest st
    | .error _ => readdirChildren w path_segments rest st

/-- The directory-resolution step of `readdir` (lines 214-223): the empty
path maps straight to `private_root()`; any other path must traverse to a
directory node; the result is the child-name listing `dir.entries()`. -/
def dirEntriesOf (w : WnfsModel) (path_segments : List String) : Option (List String) :=
  if path_segments = [] then some w.root.entries
  else
    match w.getNode path_segments with
    | .ok (some (.dir _ es)) => some es
    | _ => none

/-- `Filesystem::readdir` for `WnfsFuse` (lines 195-258): resolve the inode
to a directory, synthesize `"."` and `".."` carrying the directory's own
inode, append the resolved children, enumerate, skip `offset` entries and
add the rest (the buffer is modelled unbounded, so `reply.add` never breaks
early). -/
def WnfsFuse.readdir (w : WnfsModel) (st : Inodes) (ino : Nat) (offset : Nat) :
    ReaddirReply × Inodes :=
  match st.get_path_segments ino with
  | none => (.error .enoent, st)
  | some path_segments =>
    match dirEntriesOf w path_segments with
    | none => (.error .enoent, st)
    | some names =>
      let (children, st') := readdirChildren w path_segments names st
      let entries : List DirEntry :=
        ⟨ino, FileType.directory, "."⟩ :: ⟨ino, FileType.directory, ".."⟩ :: children
      let reply := (entries.enum.drop offset).map
        (fun p => DirReplyEntry.mk p.2.ino (p.1 + 1) p.2.kind p.2.name)
      (.entries reply, st')

/-- `Filesystem::mkdir` for `WnfsFuse` (lines 263-297): resolve the parent
path, extend with `name`, run `Wnfs::mkdir` (mutate + flush, modelled by
`mkdirOp` returning the updated tree view), then — as in the source — fetch
the node at `path_segments` (the PARENT path, not the new child `path`),
assign the child inode and reply with `node_to_attr` of that fetched node;
every failure replies `ENOENT`. -/
def WnfsFuse.mkdir (mkdirOp : List String → Except Unit WnfsModel)
    (st : Inodes) (parent : Nat) (name : String) : EntryReply × Inodes :=
  match st.get_path_segments parent with
  | none => (.error .enoent, st)
  | some path_segments =>
    let path := push_segment path_segments name
    match mkdirOp path with
    | .error _ => (.error .enoent, st)
    | .ok w' =>
      match w'.getNode path_segments with
      | .ok (some node) =>
        let (st', inode) := st.get_or_push path
        (.entry (node_to_attr inode.ino node), st')
      | .ok none => (.error .enoent, st)
      | .error _ => (.error .enoent, st)

/-- `Filesystem::write` for `WnfsFuse` (lines 299-314): logs the request and
unconditionally replies `ENOENT`. -/
def WnfsFuse.write (_st : Inodes) (_ino : Nat) (_offset : Nat) (_data : Bytes) : WriteReply :=
  .error .enoent

/-! ## Observation helpers shared by the theorems -/

/-- `file.get_metadata()` / `dir.get_metadata()`. -/
def PrivateNode.get_metadata : PrivateNode → Metadata
  | .file md _ _ => md
  | .dir md _ => md

/-- The kernel kind of a node, as the handlers compute it. -/
def PrivateNode.kind : PrivateNode → FileType
  | .file _ _ _ => FileType.regularFile
  | .dir _ _ => FileType.directory

/-- Whether a `get_node` outcome is a hit (`Ok(Some(node))`). -/
def resolvesToNode : Except Unit (Option PrivateNode) → Bool
  | .ok (some _) => true
  | _ => false

/-! ## C3 — the write handler's reply -/

/-- C3 (counterexample): at inode 1, offset 0, payload `[0]`, the write
handler replies the not-found error `ENOENT`; `ENOENT` is not the kernel's
not-supported signal `ENOSYS`, so the claim that write replies not-supported
is false. -/
theorem C3_write_enosys_counterexample :
    WnfsFuse.write WnfsFuse.newInodes 1 0 [0] = WriteReply.error Errno.enoent ∧
    WriteReply.error Errno.enoent ≠ WriteReply.error Errno.enosys := by
  exact ⟨rfl, by decide⟩

/-- C3 (amended): for every inode, offset and data payload, the adapter's
write operation replies the kernel not-found error `ENOENT`, and never any
other reply. -/
theorem C3_write_always_enoent (st : Inodes) (ino offset : Nat) (data : Bytes) :
    WnfsFuse.write st ino offset data = WriteReply.error Errno.enoent := rfl

/-! ## C7 — attribute synthesis -/

/-- C7: for every node, the attributes report permission bits 0555 for
directories and 0444 for files; size equal to the tree-reported upper-bound
content size for files and 0 for directories; link count 1 for files and 2
for directories; blocks = floor(size / 512); and each timestamp falls back
to the epoch start when the node metadata lacks it (the kind field matches
the node's kind as well). -/
theorem C7_node_to_attr_fields (ino : Nat) (node : PrivateNode) :
    (node.kind = FileType.directory → (node_to_attr ino node).perm = 0o555)
    ∧ (node.kind = FileType.regularFile → (node_to_attr ino node).perm = 0o444)
    ∧ (∀ md sz content, node = PrivateNode.file md sz content →
        (node_to_attr ino node).size = sz)
    ∧ (node.kind = FileType.directory → (node_to_attr ino node).size = 0)
    ∧ (node.kind = FileType.regularFile → (node_to_attr ino node).nlink = 1)
    ∧ (node.kind = FileType.directory → (node_to_attr ino node).nlink = 2)
    ∧ (node_to_attr ino node).blocks = (node_to_attr ino node).size / 512
    ∧ (node.get_metadata.modified = none →
        (node_to_attr ino node).mtime = UNIX_EPOCH
        ∧ (node_to_attr ino node).atime = UNIX_EPOCH)
    ∧ (node.get_metadata.created = none →
        (node_to_attr ino node).ctime = UNIX_EPOCH
        ∧ (node_to_attr ino node).crtime = UNIX_EPOCH)
    ∧ (node_to_attr ino node).kind = node.kind := by
  cases node with
  | file md sz content =>
    refine ⟨?_, ?_, ?_, ?_, ?_, ?_, ?_, ?_, ?_, ?_⟩ <;>
      simp [node_to_attr, PrivateNode.kind, PrivateNode.get_metadata, BLOCK_SIZE] <;>
      intro h <;> simp_all [node_to_attr]
  | dir md es =>
    refine ⟨?_, ?_, ?_, ?_, ?_, ?_, ?_, ?_, ?_, ?_⟩ <;>
      simp [node_to_attr, PrivateNode.kind, PrivateNode.get_metadata, BLOCK_SIZE] <;>
      intro h <;> simp_all [node_to_attr]

/-- C7 (witness): concrete evaluations — a file of size 1024 reports size
1024 and blocks 2 with read-only bits, a directory with absent timestamps
reports the epoch start. -/
theorem C7_node_to_attr_witness :
    (node_to_attr 7 (PrivateNode.file ⟨some 44, some 33⟩ 1024 [0])).size = 1024
    ∧ (node_to_attr 7 (PrivateNode.file ⟨some 44, some 33⟩ 1024 [0])).blocks
        = (node_to_attr 7 (PrivateNode.file ⟨some 44, some 33⟩ 1024 [0])).size / 512
    ∧ (node_to_attr 9 (PrivateNode.dir ⟨none, none⟩ [])).perm = 0o555
    ∧ (node_to_attr 9 (PrivateNode.dir ⟨none, none⟩ [])).mtime = UNIX_EPOCH := by
  refine ⟨?_, ?_, ?_, ?_⟩
  · exact (C7_node_to_attr_fields 7 (PrivateNode.file ⟨some 44, some 33⟩ 1024 [0])).2.2.1
      ⟨some 44, some 33⟩ 1024 [0] rfl
  · exact (C7_node_to_attr_fields 7
      (PrivateNode.file ⟨some 44, some 33⟩ 1024 [0])).2.2.2.2.2.2.1
  · exact (C7_node_to_attr_fields 9 (PrivateNode.dir ⟨none, none⟩ [])).1 rfl
  · exact ((C7_node_to_attr_fields 9
      (PrivateNode.dir ⟨none, none⟩ [])).2.2.2.2.2.2.2.1 rfl).1

/-! ## C5 — content-address determinism and deduplication -/

/-- Physical copies of a key in an association list. -/
def countKey {α β : Type} [DecidableEq α] (l : List (α × β)) (k : α) : Nat :=
  l.countP (fun p => decide (p.1 = k))

theorem alookup_eq_none_iff_not_mem {α β : Type} [DecidableEq α]
    (l : List (α × β)) (a : α) :
    alookup l a = none ↔ a ∉ l.map Prod.fst := by
  induction l with
  | nil => simp
  | cons hd tl ih =>
    obtain ⟨k, v⟩ := hd
    simp only [alookup_cons, List.map_cons, List.mem_cons]
    by_cases hk : k = a
    · subst hk; simp
    · rw [if_neg hk, ih]
      constructor
      · intro h hor
        rcases hor with h1 | h2
        · exact hk h1.symm
        · exact h h2
      · intro h h2
        exact h (Or.inr h2)

theorem countKey_eq_zero_of_not_mem {α β : Type} [DecidableEq α]
    (l : List (α × β)) (a : α) (h : a ∉ l.map Prod.fst) : countKey l a = 0 := by
  induction l with
  | nil => rfl
  | cons hd tl ih =>
    obtain ⟨k, v⟩ := hd
    simp only [List.map_cons, List.mem_cons, not_or] at h
    have hk : ¬(k = a) := fun hh => h.1 hh.symm
    have ht := ih h.2
    simp only [countKey, List.countP_cons] at ht ⊢
    simp [hk, ht]

theorem countKey_eq_one_of_nodup_mem {α β : Type} [DecidableEq α]
    (l : List (α × β)) (a : α) (hnd : (l.map Prod.fst).Nodup)
    (hmem : a ∈ l.map Prod.fst) : countKey l a = 1 := by
  induction l with
  | nil => simp at hmem
  | cons hd tl ih =>
    obtain ⟨k, v⟩ := hd
    simp only [List.map_cons, List.nodup_cons] at hnd
    rcases List.mem_cons.mp hmem with h | h
    · have h' : k = a := h.symm
      subst h'
      have : countKey tl k = 0 := countKey_eq_zero_of_not_mem tl k hnd.1
      simp [countKey, List.countP_cons] at this ⊢
      simpa [countKey] using this
    · have hk : k ≠ a := by
        rintro rfl
        exact hnd.1 h
      have := ih hnd.2 h
      simp [countKey, List.countP_cons, hk] at this ⊢
      simpa [countKey] using this

theorem nodup_keys_insertIfAbsent {α β : Type} [DecidableEq α]
    (l : List (α × β)) (k : α) (v : β) (hnd : (l.map Prod.fst).Nodup) :
    ((insertIfAbsent l k v).map Prod.fst).Nodup := by
  unfold insertIfAbsent
  cases hk : alookup l k with
  | some _ => exact hnd
  | none =>
    simp only [List.map_cons, List.nodup_cons]
    exact ⟨(alookup_eq_none_iff_not_mem l k).mp hk, hnd⟩

theorem mem_keys_insertIfAbsent_self {α β : Type} [DecidableEq α]
    (l : List (α × β)) (k : α) (v : β) :
    k ∈ (insertIfAbsent l k v).map Prod.fst := by
  unfold insertIfAbsent
  cases hk : alookup l k with
  | some w =>
    by_contra hmem
    rw [(alookup_eq_none_iff_not_mem l k).mpr hmem] at hk
    cases hk
  | none => simp

theorem insertIfAbsent_of_present {α β : Type} [DecidableEq α]
    (l : List (α × β)) (k : α) (v : β) (h : (alookup l k).isSome) :
    insertIfAbsent l k v = l := by
  unfold insertIfAbsent
  cases hk : alookup l k with
  | some _ => rfl
  | none => rw [hk] at h; cases h

/-- C5: with the digest collision-free (the content-addressing assumption
for Blake3-256), two `put_block` calls return the same address exactly when
their (bytes, codec) payloads are identical; and after two calls with the
identical payload the store holds exactly one physical copy of the block. -/
theorem C5_put_block_deterministic_dedup (H : Bytes → Bytes)
    (hinj : Function.Injective H) (st st' : SqliteBlockStore)
    (b1 b2 : Bytes) (c1 c2 : IpldCodec)
    (hnd : (st.blocks.map Prod.fst).Nodup) :
    ((st.put_block H b1 c1).2 = (st'.put_block H b2 c2).2 ↔ (b1 = b2 ∧ c1 = c2))
    ∧ countKey ((((st.put_block H b1 c1).1).put_block H b1 c1).1).blocks
        (st.put_block H b1 c1).2 = 1 := by
  constructor
  · simp only [SqliteBlockStore.put_block, Cid.mk.injEq, true_and]
    constructor
    · rintro ⟨hc, hh⟩
      exact ⟨hinj hh, hc⟩
    · rintro ⟨rfl, rfl⟩
      exact ⟨rfl, rfl⟩
  · have hnd1 : ((insertIfAbsent st.blocks ⟨1, c1, H b1⟩ b1).map Prod.fst).Nodup :=
      nodup_keys_insertIfAbsent st.blocks _ b1 hnd
    have hmem1 : (⟨1, c1, H b1⟩ : Cid) ∈ (insertIfAbsent st.blocks ⟨1, c1, H b1⟩ b1).map Prod.fst :=
      mem_keys_insertIfAbsent_self st.blocks _ b1
    have hsome : (alookup (insertIfAbsent st.blocks ⟨1, c1, H b1⟩ b1) ⟨1, c1, H b1⟩).isSome := by
      cases h : alookup (insertIfAbsent st.blocks ⟨1, c1, H b1⟩ b1) ⟨1, c1, H b1⟩ with
      | some _ => rfl
      | none =>
        exact absurd hmem1 ((alookup_eq_none_iff_not_mem _ _).mp h)
    show countKey (insertIfAbsent (insertIfAbsent st.blocks _ b1) _ b1) _ = 1
    rw [insertIfAbsent_of_present _ _ _ hsome]
    exact countKey_eq_one_of_nodup_mem _ _ hnd1 hmem1

/-- C5 (witness): with the identity digest (injective) on an empty store,
the address equality and the single-copy count evaluate as stated. -/
theorem C5_put_block_witness :
    ((SqliteBlockStore.put_block (fun b => b) ⟨[], []⟩ [0, 1] IpldCodec.dagCbor).2
        = (SqliteBlockStore.put_block (fun b => b) ⟨[], []⟩ [0, 1] IpldCodec.dagCbor).2
      ↔ (([0, 1] : Bytes) = [0, 1] ∧ IpldCodec.dagCbor = IpldCodec.dagCbor))
    ∧ countKey ((((SqliteBlockStore.put_block (fun b => b) ⟨[], []⟩ [0, 1] IpldCodec.dagCbor).1).put_block
          (fun b => b) [0, 1] IpldCodec.dagCbor).1).blocks
        (SqliteBlockStore.put_block (fun b => b) ⟨[], []⟩ [0, 1] IpldCodec.dagCbor).2 = 1 :=
  C5_put_block_deterministic_dedup (fun b => b) (fun _ _ h => h) ⟨[], []⟩ ⟨[], []⟩
    [0, 1] [0, 1] IpldCodec.dagCbor IpldCodec.dagCbor (by simp)

/-! ## C2 — the mkdir reply's attributes -/

/-- Concrete post-mkdir tree view for the C2 evaluation: the root directory
(timestamps 5) now contains the just-created directory "a" (timestamps 9). -/
def mkdirProbeModel : WnfsModel :=
  ⟨⟨⟨some 5, some 5⟩, ["a"]⟩,
   fun p =>
     if p = ([] : List String) then .ok (some (PrivateNode.dir ⟨some 5, some 5⟩ ["a"]))
     else if p = ["a"] then .ok (some (PrivateNode.dir ⟨some 9, some 9⟩ []))
     else .ok none⟩

/-- The make-directory mutation for the C2 evaluation: it succeeds and the
tree becomes `mkdirProbeModel`. -/
def mkdirProbeOp : List String → Except Unit WnfsModel :=
  fun _ => .ok mkdirProbeModel

/-- C2: evaluated at parent = root (inode 1), name = "a", with the mutation
and flush succeeding: the reply does carry the fresh child inode 2, but its
attributes are `node_to_attr` of the node fetched at the PARENT path (the
root directory, timestamps 5), which differ from the attributes of the newly
created directory at parent-path ++ ["a"] (timestamps 9) — the handler
fetches `get_node(&path_segments)` instead of `get_node(&path)`. -/
theorem C2_mkdir_replies_parent_attributes :
    (WnfsFuse.mkdir mkdirProbeOp WnfsFuse.newInodes 1 "a").1
      = EntryReply.entry (node_to_attr 2 (PrivateNode.dir ⟨some 5, some 5⟩ ["a"]))
    ∧ mkdirProbeModel.getNode (push_segment [] "a")
      = Except.ok (some (PrivateNode.dir ⟨some 9, some 9⟩ []))
    ∧ node_to_attr 2 (PrivateNode.dir ⟨some 5, some 5⟩ ["a"])
      ≠ node_to_attr 2 (PrivateNode.dir ⟨some 9, some 9⟩ []) := by
  refine ⟨?_, ?_, ?_⟩
  · rfl
  · rfl
  · decide

/-! ## The inode-table invariant -/

/-- Well-formedness of the session inode table: the reverse map points at a
matching forward entry, every forward entry is self-consistent and reverse
mapped, and no number above the counter is in use. `WnfsFuse::new`'s table
satisfies it and every handler preserves it. -/
structure Inodes.WF (s : Inodes) : Prop where
  path_to_inode : ∀ p i, alookup s.by_path p = some i → alookup s.inodes i = some ⟨p, i⟩
  inode_consistent : ∀ i nd, alookup s.inodes i = some nd →
    nd.ino = i ∧ alookup s.by_path nd.path_segments = some i
  counter_bound : ∀ i, s.counter < i → alookup s.inodes i = none

theorem Inodes.WF.ino_le_counter {s : Inodes} (hwf : s.WF) {i : Nat} {nd : Inode}
    (h : alookup s.inodes i = some nd) : i ≤ s.counter := by
  by_contra hlt
  rw [hwf.counter_bound i (Nat.lt_of_not_le hlt)] at h
  cases h

theorem Inodes.WF.by_path_inj {s : Inodes} (hwf : s.WF) {p q : List String} {i : Nat}
    (hp : alookup s.by_path p = some i) (hq : alookup s.by_path q = some i) : p = q := by
  have h1 := hwf.path_to_inode p i hp
  have h2 := hwf.path_to_inode q i hq
  rw [h1] at h2
  have h3 := Option.some.inj h2
  exact (Inode.mk.injEq _ _ _ _).mp h3 |>.1

theorem Inodes.push_spec (s : Inodes) (p : List String) (hwf : s.WF)
    (hfresh : alookup s.by_path p = none) :
    (s.push p).1.WF
    ∧ (s.push p).2 = s.counter + 1
    ∧ (s.push p).1.counter = s.counter + 1
    ∧ alookup (s.push p).1.by_path p = some (s.counter + 1)
    ∧ alookup (s.push p).1.inodes (s.counter + 1) = some ⟨p, s.counter + 1⟩
    ∧ (∀ i nd, alookup s.inodes i = some nd → alookup (s.push p).1.inodes i = some nd)
    ∧ (∀ q j, alookup s.by_path q = some j → alookup (s.push p).1.by_path q = some j) := by
  have hpresInodes : ∀ i nd, alookup s.inodes i = some nd →
      alookup (s.push p).1.inodes i = some nd := by
    intro i nd h
    have hle := hwf.ino_le_counter h
    have hne : ¬(s.counter + 1 = i) := by omega
    simp [Inodes.push, hne, h]
  have hpresPaths : ∀ q j, alookup s.by_path q = some j →
      alookup (s.push p).1.by_path q = some j := by
    intro q j h
    have hne : ¬(p = q) := by
      rintro rfl
      rw [hfresh] at h
      cases h
    simp [Inodes.push, hne, h]
  refine ⟨?_, rfl, rfl, by simp [Inodes.push], by simp [Inodes.push], hpresInodes, hpresPaths⟩
  constructor
  · intro q i h
    simp only [Inodes.push, alookup_cons] at h ⊢
    by_cases hq : p = q
    · subst hq
      simp only [if_pos rfl] at h
      have hi := Option.some.inj h
      subst hi
      simp
    · rw [if_neg hq] at h
      have hle := hwf.ino_le_counter (hwf.path_to_inode q i h)
      have hne : ¬(s.counter + 1 = i) := by omega
      rw [if_neg hne]
      exact hwf.path_to_inode q i h
  · intro i nd h
    simp only [Inodes.push, alookup_cons] at h ⊢
    by_cases hi : s.counter + 1 = i
    · subst hi
      simp only [if_pos rfl] at h
      have hnd := Option.some.inj h
      subst hnd
      simp
    · rw [if_neg hi] at h
      obtain ⟨h1, h2⟩ := hwf.inode_consistent i nd h
      refine ⟨h1, ?_⟩
      have hne : ¬(p = nd.path_segments) := by
        rintro rfl
        rw [hfresh] at h2
        cases h2
      rw [if_neg hne]
      exact h2
  · intro i hi
    simp only [Inodes.push] at hi ⊢
    have h1 : ¬(s.counter + 1 = i) := by omega
    have h2 := hwf.counter_bound i (by omega)
    simp [h1, h2]

theorem Inodes.get_or_push_spec (s : Inodes) (p : List String) (hwf : s.WF) :
    (s.get_or_push p).1.WF
    ∧ (s.get_or_push p).2.path_segments = p
    ∧ alookup (s.get_or_push p).1.by_path p = some (s.get_or_push p).2.ino
    ∧ alookup (s.get_or_push p).1.inodes (s.get_or_push p).2.ino = some (s.get_or_push p).2
    ∧ (∀ i nd, alookup s.inodes i = some nd → alookup (s.get_or_push p).1.inodes i = some nd)
    ∧ (∀ q j, alookup s.by_path q = some j → alookup (s.get_or_push p).1.by_path q = some j)
    ∧ (alookup s.by_path p = none →
        (s.get_or_push p).2.ino = s.counter + 1 ∧ (s.get_or_push p).1.counter = s.counter + 1)
    ∧ (∀ j, alookup s.by_path p = some j → (s.get_or_push p).2.ino = j ∧ (s.get_or_push p).1 = s) := by
  cases hb : alookup s.by_path p with
  | some id =>
    have hin := hwf.path_to_inode p id hb
    have hred : s.get_or_push p = (s, ⟨p, id⟩) := by
      simp [Inodes.get_or_push, hb, Inodes.get, hin]
    rw [hred]
    refine ⟨hwf, rfl, ?_, ?_, fun i nd h => h, fun q j h => h, ?_, ?_⟩
    · simpa using hb
    · simpa using hin
    · intro hnone
      exact Option.noConfusion hnone
    · intro j hj
      have hji := Option.some.inj hj
      subst hji
      exact ⟨rfl, rfl⟩
  | none =>
    obtain ⟨hwf', hino, hcnt, hbp, hinp, hpi, hpp⟩ := Inodes.push_spec s p hwf hb
    have hred : s.get_or_push p = ((s.push p).1, ⟨p, s.counter + 1⟩) := by
      simp only [Inodes.get_or_push, hb]
      have : (s.push p).2 = s.counter + 1 := hino
      simp [Inodes.get, this, hinp]
    rw [hred]
    refine ⟨hwf', rfl, ?_, ?_, hpi, hpp, fun _ => ⟨rfl, hcnt⟩, ?_⟩
    · simpa using hbp
    · simpa using hinp
    · intro j hj
      exact Option.noConfusion hj

theorem wf_newInodes : Inodes.WF WnfsFuse.newInodes := by
  constructor
  · intro p i h
    simp only [WnfsFuse.newInodes, Inodes.push, alookup_cons, alookup_nil] at h ⊢
    by_cases hp : ([] : List String) = p
    · subst hp
      simp only [if_pos rfl] at h
      have := Option.some.inj h
      subst this
      simp
    · rw [if_neg hp] at h
      cases h
  · intro i nd h
    simp only [WnfsFuse.newInodes, Inodes.push, alookup_cons, alookup_nil] at h ⊢
    by_cases hi : 0 + 1 = i
    · subst hi
      simp only [if_pos rfl] at h
      have := Option.some.inj h
      subst this
      simp
    · rw [if_neg hi] at h
      cases h
  · intro i hi
    simp only [WnfsFuse.newInodes, Inodes.push, alookup_cons, alookup_nil] at hi ⊢
    have : ¬(0 + 1 = i) := by omega
    simp [this]

/-! ## C6 — inode-table algebra -/

/-- C6: assigning the same path twice returns the same number; distinct
paths receive distinct numbers; resolving an assigned number yields the
path; a fresh path receives the next sequential number `counter + 1`;
existing assignments are never dropped (no reuse within a session); and
`WnfsFuse::new` pre-registers the root path at the reserved `ROOT_INO`, so
every later fresh number lies strictly above it. -/
theorem C6_inode_table_algebra (s : Inodes) (p q : List String) (hwf : s.WF) :
    ((s.get_or_push p).1.get_or_push p).2.ino = (s.get_or_push p).2.ino
    ∧ (p ≠ q → ((s.get_or_push p).1.get_or_push q).2.ino ≠ (s.get_or_push p).2.ino)
    ∧ (s.get_or_push p).1.get_path_segments (s.get_or_push p).2.ino = some p
    ∧ (alookup s.by_path p = none → (s.get_or_push p).2.ino = s.counter + 1)
    ∧ (∀ i nd, alookup s.inodes i = some nd → alookup (s.get_or_push p).1.inodes i = some nd)
    ∧ WnfsFuse.newInodes.get_path_segments ROOT_INO = some []
    ∧ WnfsFuse.newInodes.counter = ROOT_INO
    ∧ (alookup s.by_path p = none → ROOT_INO ≤ s.counter →
        ROOT_INO < (s.get_or_push p).2.ino) := by
  obtain ⟨hwf1, hpath1, hbp1, hin1, hpi1, hpp1, hfresh1, hhit1⟩ :=
    Inodes.get_or_push_spec s p hwf
  refine ⟨?_, ?_, ?_, ?_, hpi1, ?_, rfl, ?_⟩
  · exact ((Inodes.get_or_push_spec (s.get_or_push p).1 p hwf1).2.2.2.2.2.2.2
      (s.get_or_push p).2.ino hbp1).1
  · intro hpq heq
    obtain ⟨hwf2, hpath2, hbp2, hin2, hpi2, hpp2, hfresh2, hhit2⟩ :=
      Inodes.get_or_push_spec (s.get_or_push p).1 q hwf1
    have hp2 : alookup ((s.get_or_push p).1.get_or_push q).1.by_path p
        = some (s.get_or_push p).2.ino := hpp2 p (s.get_or_push p).2.ino hbp1
    rw [heq] at hbp2
    exact hpq (hwf2.by_path_inj hp2 hbp2)
  · simp only [Inodes.get_path_segments, Inodes.get, hin1, Option.map_some']
    rw [hpath1]
  · intro hnone
    exact (hfresh1 hnone).1
  · decide
  · intro hnone hroot
    have := (hfresh1 hnone).1
    omega
/-- C6 (witness): on the freshly initialized table, assigning `["a"]` twice
returns the same number, `["b"]` returns a different one, and the number
assigned to `["a"]` resolves back to `["a"]`. -/
theorem C6_inode_table_witness :
    ((WnfsFuse.newInodes.get_or_push ["a"]).1.get_or_push ["a"]).2.ino
        = (WnfsFuse.newInodes.get_or_push ["a"]).2.ino
    ∧ ((WnfsFuse.newInodes.get_or_push ["a"]).1.get_or_push ["b"]).2.ino
        ≠ (WnfsFuse.newInodes.get_or_push ["a"]).2.ino
    ∧ (WnfsFuse.newInodes.get_or_push ["a"]).1.get_path_segments
        (WnfsFuse.newInodes.get_or_push ["a"]).2.ino = some ["a"] := by
  have h := C6_inode_table_algebra WnfsFuse.newInodes ["a"] ["b"] wf_newInodes
  exact ⟨h.1, h.2.1 (by decide), h.2.2.1⟩

/-! ## C10 — lookup's frame effect on the inode table -/

/-- C10: with a known parent inode, `lookup` assigns the child inode before
consulting the tree, so the table gains (and keeps) an entry for the child
path even when the reply is the not-found error; no table entry is ever
rolled back. -/
theorem C10_lookup_assigns_before_query (w : WnfsModel) (s : Inodes)
    (parent : Nat) (nd : Inode) (name : String) (hwf : s.WF)
    (hparent : alookup s.inodes parent = some nd) :
    (∃ i, alookup (WnfsFuse.lookup w s parent name).2.by_path
        (push_segment nd.path_segments name) = some i)
    ∧ (∀ q j, alookup s.by_path q = some j →
        alookup (WnfsFuse.lookup w s parent name).2.by_path q = some j)
    ∧ (∀ i x, alookup s.inodes i = some x →
        alookup (WnfsFuse.lookup w s parent name).2.inodes i = some x)
    ∧ (w.getNode (push_segment nd.path_segments name) = .ok none →
        (WnfsFuse.lookup w s parent name).1 = .error .enoent) := by
  obtain ⟨hwf1, hpath1, hbp1, hin1, hpi1, hpp1, hfresh1, hhit1⟩ :=
    Inodes.get_or_push_spec s (push_segment nd.path_segments name) hwf
  have hps : s.get_path_segments parent = some nd.path_segments := by
    simp [Inodes.get_path_segments, Inodes.get, hparent]
  have hsnd : (WnfsFuse.lookup w s parent name).2
      = (s.get_or_push (push_segment nd.path_segments name)).1 := by
    simp only [WnfsFuse.lookup, hps]
    cases hg : w.getNode (push_segment nd.path_segments name) with
    | ok v => cases v <;> simp
    | error e => simp
  refine ⟨⟨(s.get_or_push (push_segment nd.path_segments name)).2.ino, ?_⟩, ?_, ?_, ?_⟩
  · rw [hsnd]; exact hbp1
  · intro q j h; rw [hsnd]; exact hpp1 q j h
  · intro i x h; rw [hsnd]; exact hpi1 i x h
  · intro hg
    simp only [WnfsFuse.lookup, hps, hg]

/-- C10 (witness): with a tree in which every path misses, looking up
"ghost" under the root replies the not-found error yet the table now holds
an inode for the path `["ghost"]`. -/
theorem C10_lookup_witness :
    (∃ i, alookup (WnfsFuse.lookup ⟨⟨⟨none, none⟩, []⟩, fun _ => .ok none⟩
        WnfsFuse.newInodes 1 "ghost").2.by_path
        (push_segment [] "ghost") = some i)
    ∧ (WnfsFuse.lookup ⟨⟨⟨none, none⟩, []⟩, fun _ => .ok none⟩
        WnfsFuse.newInodes 1 "ghost").1 = .error .enoent := by
  have h := C10_lookup_assigns_before_query ⟨⟨⟨none, none⟩, []⟩, fun _ => .ok none⟩
    WnfsFuse.newInodes 1 ⟨[], 1⟩ "ghost" wf_newInodes (by decide)
  exact ⟨h.1, h.2.2.2 rfl⟩

/-! ## C9 — the read handler -/

/-- C9: a read replies the single kernel not-found error when the inode was
never assigned, when the path resolves to no node (either a traversal error
or a miss), or when the node is a directory; otherwise the node is a file
and the reply carries the bytes of the content in `[offset, offset+size)`. -/
theorem C9_read_cases (w : WnfsModel) (st : Inodes) (ino offset size : Nat) :
    (st.get_path_segments ino = none →
      WnfsFuse.read w st ino offset size = .error .enoent)
    ∧ (∀ path, st.get_path_segments ino = some path →
        ((w.getNode path = .error () ∨ w.getNode path = .ok none
            ∨ ∃ md es, w.getNode path = .ok (some (.dir md es))) →
          WnfsFuse.read w st ino offset size = .error .enoent)
        ∧ (∀ md sz content, w.getNode path = .ok (some (.file md sz content)) →
            WnfsFuse.read w st ino offset size = .data ((content.drop offset).take size))) := by
  refine ⟨?_, ?_⟩
  · intro h
    simp [WnfsFuse.read, h]
  · intro path hp
    constructor
    · rintro (hg | hg | ⟨md, es, hg⟩) <;>
        simp [WnfsFuse.read, Wnfs.read_file_chunk, hp, hg]
    · intro md sz content hg
      simp [WnfsFuse.read, Wnfs.read_file_chunk, read_chunk, hp, hg]

/-- C9 (witness): an unassigned inode replies the not-found error; a file
`[1,2,3,4]` read at offset 1, size 2 replies `[2,3]`. -/
theorem C9_read_witness :
    WnfsFuse.read ⟨⟨⟨none, none⟩, []⟩, fun _ => .ok none⟩ WnfsFuse.newInodes 5 0 1
      = .error .enoent
    ∧ WnfsFuse.read
        ⟨⟨⟨none, none⟩, ["f"]⟩,
         fun p => if p = ["f"] then .ok (some (.file ⟨none, none⟩ 4 [1, 2, 3, 4]))
           else .ok none⟩
        (WnfsFuse.newInodes.get_or_push ["f"]).1 2 1 2
      = .data [2, 3] := by
  constructor
  · exact (C9_read_cases ⟨⟨⟨none, none⟩, []⟩, fun _ => .ok none⟩
      WnfsFuse.newInodes 5 0 1).1 (by decide)
  · exact ((C9_read_cases
      ⟨⟨⟨none, none⟩, ["f"]⟩,
       fun p => if p = ["f"] then .ok (some (.file ⟨none, none⟩ 4 [1, 2, 3, 4]))
         else .ok none⟩
      (WnfsFuse.newInodes.get_or_push ["f"]).1 2 1 2).2 ["f"] (by decide)).2
      ⟨none, none⟩ 4 [1, 2, 3, 4] (by simp)

/-! ## C1 — open on a present-but-undecodable root record -/

/-- Concrete store for the C1 evaluation: the alias `private-root:x` points
at a block `[0]` that the decoder rejects. -/
def corruptProbeStore : SqliteBlockStore :=
  ⟨[(⟨1, IpldCodec.dagCbor, [0]⟩, [0])],
   [("private-root:x", ⟨1, IpldCodec.dagCbor, [0]⟩)]⟩

/-- Concrete decoder for the C1 evaluation: rejects `[0]`, accepts anything
else. -/
def corruptProbeDec : Bytes → Option PrivateRoot :=
  fun b => if b = [0] then none else some ⟨⟨1, IpldCodec.dagCbor, [7]⟩, 0⟩

/-- Concrete fresh-root creation for the C1 evaluation. -/
def corruptProbeCreate : SqliteBlockStore → SqliteBlockStore × PrivateRoot :=
  fun s => (s, ⟨⟨1, IpldCodec.dagCbor, [3]⟩, 7⟩)

/-- Concrete snapshot load for the C1 evaluation: always succeeds. -/
def corruptProbeLoad : SqliteBlockStore → PrivateRoot → Except Unit DirHandle :=
  fun _ _ => .ok ⟨⟨none, none⟩, []⟩

/-- C1 (counterexample): on a store whose alias is present but whose block
fails typed decoding, `open_from_path` does NOT fail: it returns Ok, and it
mutates the store — the alias no longer resolves to the old record's
address (it has been repointed to a freshly published RootRecord), refuting
the claim that open fails with CorruptRecord and performs no mutation. -/
theorem C1_open_corrupt_record_counterexample :
    corruptProbeStore.resolve_alias (private_root_alias "x")
        = some ⟨1, IpldCodec.dagCbor, [0]⟩
    ∧ corruptProbeDec [0] = none
    ∧ (open_from_path (fun b => b) (fun _ => [1]) corruptProbeDec corruptProbeCreate
        corruptProbeLoad corruptProbeStore "x").1
        = .ok (⟨⟨1, IpldCodec.dagCbor, [3]⟩, 7⟩, ⟨⟨none, none⟩, []⟩)
    ∧ (open_from_path (fun b => b) (fun _ => [1]) corruptProbeDec corruptProbeCreate
        corruptProbeLoad corruptProbeStore "x").2.resolve_alias (private_root_alias "x")
        ≠ some ⟨1, IpldCodec.dagCbor, [0]⟩ := by
  refine ⟨rfl, rfl, rfl, ?_⟩
  decide

/-- C1 (amended): for every store in which the alias is present but the
block it points to fails typed decoding, open(name) does not fail with a
corrupt-record error and does mutate the store: exactly as for an absent
alias, it creates a fresh private root, publishes a new RootRecord block
and repoints the alias to the new record's address; when the snapshot load
then succeeds, open returns Ok with the fresh root. -/
theorem C1_open_corrupt_record_amended (H : Bytes → Bytes)
    (enc : PrivateRoot → Bytes) (dec : Bytes → Option PrivateRoot)
    (createPrivateDir : SqliteBlockStore → SqliteBlockStore × PrivateRoot)
    (loadDir : SqliteBlockStore → PrivateRoot → Except Unit DirHandle)
    (st : SqliteBlockStore) (name : String) (cOld : Cid) (bOld : Bytes)
    (h1 : st.resolve_alias (private_root_alias name) = some cOld)
    (h2 : st.get_block cOld = some bOld)
    (h3 : dec bOld = none) :
    (open_from_path H enc dec createPrivateDir loadDir st name).2
      = (put_serializable_with_alias H enc (createPrivateDir st).1
          (private_root_alias name) (createPrivateDir st).2).1
    ∧ (open_from_path H enc dec createPrivateDir loadDir st name).2.resolve_alias
        (private_root_alias name)
      = some ⟨1, IpldCodec.dagCbor, H (enc (createPrivateDir st).2)⟩
    ∧ (∀ d, loadDir (put_serializable_with_alias H enc (createPrivateDir st).1
          (private_root_alias name) (createPrivateDir st).2).1 (createPrivateDir st).2
          = .ok d →
        (open_from_path H enc dec createPrivateDir loadDir st name).1
          = .ok ((createPrivateDir st).2, d)) := by
  have hget : get_deserializable_from_alias dec st (private_root_alias name) = .error () := by
    simp [get_deserializable_from_alias, h1, h2, h3]
  have hresolve : ∀ (s : SqliteBlockStore) (n : String) (v : PrivateRoot),
      (put_serializable_with_alias H enc s n v).1.resolve_alias n
        = some ⟨1, IpldCodec.dagCbor, H (enc v)⟩ := by
    intro s n v
    simp [put_serializable_with_alias, SqliteBlockStore.put_block,
      SqliteBlockStore.aliasSet, SqliteBlockStore.resolve_alias]
  have hopen : open_from_path H enc dec createPrivateDir loadDir st name
      = (match loadDir (put_serializable_with_alias H enc (createPrivateDir st).1
            (private_root_alias name) (createPrivateDir st).2).1 (createPrivateDir st).2 with
         | .error _ => (.error (),
             (put_serializable_with_alias H enc (createPrivateDir st).1
               (private_root_alias name) (createPrivateDir st).2).1)
         | .ok d => (.ok ((createPrivateDir st).2, d),
             (put_serializable_with_alias H enc (createPrivateDir st).1
               (private_root_alias name) (createPrivateDir st).2).1)) := by
    rw [open_from_path, hget]
  refine ⟨?_, ?_, ?_⟩
  · rw [hopen]
    cases loadDir (put_serializable_with_alias H enc (createPrivateDir st).1
        (private_root_alias name) (createPrivateDir st).2).1 (createPrivateDir st).2 <;> rfl
  · rw [hopen]
    cases loadDir (put_serializable_with_alias H enc (createPrivateDir st).1
        (private_root_alias name) (createPrivateDir st).2).1 (createPrivateDir st).2 <;>
      simpa using hresolve (createPrivateDir st).1 (private_root_alias name)
        (createPrivateDir st).2
  · intro d hd
    rw [hopen, hd]

/-- C1 (witness): the amended behaviour evaluated on the concrete corrupt
store: the alias ends up at the fresh record's address and open returns Ok
with the fresh root. -/
theorem C1_open_corrupt_record_witness :
    (open_from_path (fun b => b) (fun _ => [1]) corruptProbeDec corruptProbeCreate
        corruptProbeLoad corruptProbeStore "x").2.resolve_alias (private_root_alias "x")
      = some ⟨1, IpldCodec.dagCbor, [1]⟩
    ∧ (open_from_path (fun b => b) (fun _ => [1]) corruptProbeDec corruptProbeCreate
        corruptProbeLoad corruptProbeStore "x").1
      = .ok (⟨⟨1, IpldCodec.dagCbor, [3]⟩, 7⟩, ⟨⟨none, none⟩, []⟩) := by
  have h := C1_open_corrupt_record_amended (fun b => b) (fun _ => [1]) corruptProbeDec
    corruptProbeCreate corruptProbeLoad corruptProbeStore "x"
    ⟨1, IpldCodec.dagCbor, [0]⟩ [0] (by decide) (by decide) (by decide)
  exact ⟨h.2.1, h.2.2 ⟨⟨none, none⟩, []⟩ rfl⟩

/-! ## C4 — flush publishes content first, repoints the alias last -/

theorem applyOps_puts_preserve (ops : List StoreOp)
    (hput : ∀ op ∈ ops, ∃ c b, op = StoreOp.putBlock c b) (st : SqliteBlockStore) :
    (∀ n, (applyOps st ops).resolve_alias n = st.resolve_alias n)
    ∧ (∀ c v, st.get_block c = some v → (applyOps st ops).get_block c = some v) := by
  induction ops generalizing st with
  | nil => exact ⟨fun n => rfl, fun c v h => h⟩
  | cons op rest ih =>
    obtain ⟨c, b, rfl⟩ := hput op (List.mem_cons_self op rest)
    have hstep : applyOps st (StoreOp.putBlock c b :: rest)
        = applyOps (applyOp st (StoreOp.putBlock c b)) rest := rfl
    have hrest := ih (fun o ho => hput o (List.mem_cons_of_mem _ ho))
      (applyOp st (StoreOp.putBlock c b))
    constructor
    · intro n
      rw [hstep, hrest.1 n]
      rfl
    · intro c' v h
      rw [hstep]
      apply hrest.2
      exact alookup_insertIfAbsent_preserved st.blocks c b c' v h

/-- C4: flush, as the code sequences it, equals the application of its
store-mutation list; that list is a run of block publishes (the snapshot's
content blocks, the forest block and the new RootRecord block) with the
alias repoint as its one and only final mutation; stopping after any proper
prefix of the mutations leaves the alias resolving to the previous
RootRecord's address, and a subsequent typed load through the alias still
yields the previous RootRecord; the complete run leaves the alias at the
new record's address. -/
theorem C4_flush_alias_repoint_last (H : Bytes → Bytes) (enc : PrivateRoot → Bytes)
    (name : String) (contentPuts : List (Bytes × IpldCodec)) (revision : Nat)
    (forestBytes : Bytes) (st : SqliteBlockStore) (dec : Bytes → Option PrivateRoot)
    (oldCid : Cid) (oldBytes : Bytes) (oldRoot : PrivateRoot)
    (h1 : st.resolve_alias (private_root_alias name) = some oldCid)
    (h2 : st.get_block oldCid = some oldBytes)
    (h3 : dec oldBytes = some oldRoot) :
    ((flush H enc name contentPuts revision forestBytes st).1
        = applyOps st (flushOps H enc name contentPuts revision forestBytes))
    ∧ (∃ l, flushOps H enc name contentPuts revision forestBytes
          = l ++ [StoreOp.setAlias (private_root_alias name)
              ⟨1, IpldCodec.dagCbor,
               H (enc ⟨⟨1, IpldCodec.dagCbor, H forestBytes⟩, revision⟩)⟩]
        ∧ ∀ op ∈ l, ∃ c b, op = StoreOp.putBlock c b)
    ∧ (∀ k, k < (flushOps H enc name contentPuts revision forestBytes).length →
        (applyOps st ((flushOps H enc name contentPuts revision forestBytes).take k)).resolve_alias
            (private_root_alias name) = some oldCid
        ∧ get_deserializable_from_alias dec
            (applyOps st ((flushOps H enc name contentPuts revision forestBytes).take k))
            (private_root_alias name) = Except.ok oldRoot)
    ∧ (applyOps st (flushOps H enc name contentPuts revision forestBytes)).resolve_alias
        (private_root_alias name)
      = some ⟨1, IpldCodec.dagCbor,
          H (enc ⟨⟨1, IpldCodec.dagCbor, H forestBytes⟩, revision⟩)⟩ := by
  have hl : flushOps H enc name contentPuts revision forestBytes
      = (contentPuts.map (fun p => StoreOp.putBlock ⟨1, p.2, H p.1⟩ p.1)
          ++ [StoreOp.putBlock ⟨1, IpldCodec.dagCbor, H forestBytes⟩ forestBytes,
              StoreOp.putBlock
                ⟨1, IpldCodec.dagCbor, H (enc ⟨⟨1, IpldCodec.dagCbor, H forestBytes⟩, revision⟩)⟩
                (enc ⟨⟨1, IpldCodec.dagCbor, H forestBytes⟩, revision⟩)])
        ++ [StoreOp.setAlias (private_root_alias name)
            ⟨1, IpldCodec.dagCbor,
             H (enc ⟨⟨1, IpldCodec.dagCbor, H forestBytes⟩, revision⟩)⟩] := by
    simp [flushOps]
  have hputs : ∀ op ∈ contentPuts.map (fun p => StoreOp.putBlock ⟨1, p.2, H p.1⟩ p.1)
      ++ [StoreOp.putBlock ⟨1, IpldCodec.dagCbor, H forestBytes⟩ forestBytes,
          StoreOp.putBlock
            ⟨1, IpldCodec.dagCbor, H (enc ⟨⟨1, IpldCodec.dagCbor, H forestBytes⟩, revision⟩)⟩
            (enc ⟨⟨1, IpldCodec.dagCbor, H forestBytes⟩, revision⟩)],
      ∃ c b, op = StoreOp.putBlock c b := by
    intro op hop
    rcases List.mem_append.mp hop with hmap | htail
    · obtain ⟨p, _, rfl⟩ := List.mem_map.mp hmap
      exact ⟨_, _, rfl⟩
    · rcases List.mem_cons.mp htail with h | htail2
      · exact ⟨_, _, h⟩
      · rcases List.mem_cons.mp htail2 with h | htail3
        · exact ⟨_, _, h⟩
        · cases htail3
  refine ⟨?_, ⟨_, hl, hputs⟩, ?_, ?_⟩
  · simp only [flush, flushOps, applyOps, List.foldl_append, List.foldl_map]
    rfl
  · intro k hk
    rw [hl] at hk ⊢
    rw [List.length_append] at hk
    have hk' : k ≤ (contentPuts.map (fun p => StoreOp.putBlock ⟨1, p.2, H p.1⟩ p.1)
        ++ [StoreOp.putBlock ⟨1, IpldCodec.dagCbor, H forestBytes⟩ forestBytes,
            StoreOp.putBlock
              ⟨1, IpldCodec.dagCbor, H (enc ⟨⟨1, IpldCodec.dagCbor, H forestBytes⟩, revision⟩)⟩
              (enc ⟨⟨1, IpldCodec.dagCbor, H forestBytes⟩, revision⟩)]).length := by
      simp only [List.length_singleton] at hk
      omega
    rw [List.take_append_of_le_length hk']
    have hsub : ∀ op ∈ (contentPuts.map (fun p => StoreOp.putBlock ⟨1, p.2, H p.1⟩ p.1)
        ++ [StoreOp.putBlock ⟨1, IpldCodec.dagCbor, H forestBytes⟩ forestBytes,
            StoreOp.putBlock
              ⟨1, IpldCodec.dagCbor, H (enc ⟨⟨1, IpldCodec.dagCbor, H forestBytes⟩, revision⟩)⟩
              (enc ⟨⟨1, IpldCodec.dagCbor, H forestBytes⟩, revision⟩)]).take k,
        ∃ c b, op = StoreOp.putBlock c b :=
      fun op hop => hputs op (List.take_subset k _ hop)
    obtain ⟨hres, hget⟩ := applyOps_puts_preserve _ hsub st
    refine ⟨by rw [hres, h1], ?_⟩
    have hgb := hget oldCid oldBytes h2
    simp [get_deserializable_from_alias, hres, h1, hgb, h3]
  · rw [hl]
    simp only [applyOps, List.foldl_append]
    simp [applyOp, SqliteBlockStore.aliasSet, SqliteBlockStore.resolve_alias]

/-- C4 (witness): on a concrete store whose alias points at the old record
`[0]`, the full flush run repoints the alias to the new record's address,
while stopping after three of the four mutations (all three block
publishes) leaves the alias at the old record. -/
theorem C4_flush_witness :
    (applyOps ⟨[(⟨1, IpldCodec.dagCbor, [0]⟩, [0])],
        [("private-root:x", ⟨1, IpldCodec.dagCbor, [0]⟩)]⟩
      (flushOps (fun b => b) (fun _ => [2]) "x" [([5], IpldCodec.raw)] 0 [6])).resolve_alias
        (private_root_alias "x") = some ⟨1, IpldCodec.dagCbor, [2]⟩
    ∧ (applyOps ⟨[(⟨1, IpldCodec.dagCbor, [0]⟩, [0])],
        [("private-root:x", ⟨1, IpldCodec.dagCbor, [0]⟩)]⟩
      ((flushOps (fun b => b) (fun _ => [2]) "x" [([5], IpldCodec.raw)] 0 [6]).take 3)).resolve_alias
        (private_root_alias "x") = some ⟨1, IpldCodec.dagCbor, [0]⟩ := by
  have h := C4_flush_alias_repoint_last (fun b => b) (fun _ => [2]) "x"
    [([5], IpldCodec.raw)] 0 [6]
    ⟨[(⟨1, IpldCodec.dagCbor, [0]⟩, [0])], [("private-root:x", ⟨1, IpldCodec.dagCbor, [0]⟩)]⟩
    (fun b => if b = [0] then some ⟨⟨1, IpldCodec.dagCbor, [4]⟩, 9⟩ else none)
    ⟨1, IpldCodec.dagCbor, [0]⟩ [0] ⟨⟨1, IpldCodec.dagCbor, [4]⟩, 9⟩
    (by decide) (by decide) (by decide)
  exact ⟨h.2.2.2, (h.2.2.1 3 (by decide)).1⟩

/-! ## C8 — readdir enumeration -/

theorem push_segment_inj {d : List String} {a b : String}
    (h : push_segment d a = push_segment d b) : a = b := by
  simp [push_segment] at h
  exact h

theorem push_segment_ne_self (d : List String) (a : String) :
    push_segment d a ≠ d := by
  simp [push_segment]

/-- The readdir child loop: the final table is well-formed and extends the
initial one; every produced entry names a child whose node resolves, carries
that node's kind, and is bound in the final table at the child path; the
produced names are exactly the resolving children in order; and for
duplicate-free child names the produced inode numbers are duplicate-free. -/
theorem readdirChildren_spec (w : WnfsModel) (dirPath : List String)
    (names : List String) : ∀ (st : Inodes), st.WF →
    (readdirChildren w dirPath names st).2.WF
    ∧ (∀ q j, alookup st.by_path q = some j →
        alookup (readdirChildren w dirPath names st).2.by_path q = some j)
    ∧ (∀ i nd, alookup st.inodes i = some nd →
        alookup (readdirChildren w dirPath names st).2.inodes i = some nd)
    ∧ (∀ e ∈ (readdirChildren w dirPath names st).1,
        e.name ∈ names
        ∧ alookup (readdirChildren w dirPath names st).2.by_path
            (push_segment dirPath e.name) = some e.ino
        ∧ ∃ node, w.getNode (push_segment dirPath e.name) = .ok (some node)
            ∧ e.kind = node.kind)
    ∧ ((readdirChildren w dirPath names st).1.map DirEntry.name
        = names.filter (fun n => resolvesToNode (w.getNode (push_segment dirPath n))))
    ∧ (names.Nodup → ((readdirChildren w dirPath names st).1.map DirEntry.ino).Nodup) := by
  induction names with
  | nil =>
    intro st hwf
    refine ⟨hwf, fun q j h => h, fun i nd h => h, ?_, rfl, fun _ => List.nodup_nil⟩
    intro e he
    simp [readdirChildren] at he
  | cons name rest ih =>
    intro st hwf
    cases hg : w.getNode (push_segment dirPath name) with
    | error err =>
      have hred : readdirChildren w dirPath (name :: rest) st
          = readdirChildren w dirPath rest st := by
        simp only [readdirChildren, hg]
      obtain ⟨h1, h2, h3, h4, h5, h6⟩ := ih st hwf
      rw [hred]
      refine ⟨h1, h2, h3, ?_, ?_, ?_⟩
      · intro e he
        obtain ⟨hm, hb, hn⟩ := h4 e he
        exact ⟨List.mem_cons_of_mem _ hm, hb, hn⟩
      · have hf : resolvesToNode (w.getNode (push_segment dirPath name)) = false := by
          rw [hg]; rfl
        rw [h5]
        simp [List.filter_cons, hf]
      · intro hnd
        exact h6 (List.nodup_cons.mp hnd).2
    | ok v =>
      cases v with
      | none =>
        have hred : readdirChildren w dirPath (name :: rest) st
            = readdirChildren w dirPath rest st := by
          simp only [readdirChildren, hg]
        obtain ⟨h1, h2, h3, h4, h5, h6⟩ := ih st hwf
        rw [hred]
        refine ⟨h1, h2, h3, ?_, ?_, ?_⟩
        · intro e he
          obtain ⟨hm, hb, hn⟩ := h4 e he
          exact ⟨List.mem_cons_of_mem _ hm, hb, hn⟩
        · have hf : resolvesToNode (w.getNode (push_segment dirPath name)) = false := by
            rw [hg]; rfl
          rw [h5]
          simp [List.filter_cons, hf]
        · intro hnd
          exact h6 (List.nodup_cons.mp hnd).2
      | some node =>
        obtain ⟨hwf', hpath', hbp', hin', hpi', hpp', hfr', hh'⟩ :=
          Inodes.get_or_push_spec st (push_segment dirPath name) hwf
        obtain ⟨h1, h2, h3, h4, h5, h6⟩ :=
          ih (st.get_or_push (push_segment dirPath name)).1 hwf'
        have hred : readdirChildren w dirPath (name :: rest) st
            = (⟨(st.get_or_push (push_segment dirPath name)).2.ino, node.kind, name⟩
                :: (readdirChildren w dirPath rest
                    (st.get_or_push (push_segment dirPath name)).1).1,
               (readdirChildren w dirPath rest
                 (st.get_or_push (push_segment dirPath name)).1).2) := by
          cases node with
          | dir md es =>
            simp only [readdirChildren, hg, PrivateNode.kind]
          | file md sz content =>
            simp only [readdirChildren, hg, PrivateNode.kind]
        have hbind : alookup (readdirChildren w dirPath rest
              (st.get_or_push (push_segment dirPath name)).1).2.by_path
              (push_segment dirPath name)
            = some (st.get_or_push (push_segment dirPath name)).2.ino :=
          h2 _ _ hbp'
        rw [hred]
        refine ⟨h1, ?_, ?_, ?_, ?_, ?_⟩
        · intro q j h
          exact h2 q j (hpp' q j h)
        · intro i nd h
          exact h3 i nd (hpi' i nd h)
        · intro e he
          rcases List.mem_cons.mp he with rfl | hm
          · exact ⟨List.mem_cons_self _ _, hbind, node, hg, rfl⟩
          · obtain ⟨hm', hb, hn⟩ := h4 e hm
            exact ⟨List.mem_cons_of_mem _ hm', hb, hn⟩
        · have ht : resolvesToNode (w.getNode (push_segment dirPath name)) = true := by
            rw [hg]; rfl
          simp [List.filter_cons, ht, h5]
        · intro hnd
          obtain ⟨hnin, hndrest⟩ := List.nodup_cons.mp hnd
          have htl := h6 hndrest
          simp only [List.map_cons, List.nodup_cons]
          refine ⟨?_, htl⟩
          intro hmem
          obtain ⟨e, he, heino⟩ := List.mem_map.mp hmem
          obtain ⟨hm', hb, _⟩ := h4 e he
          rw [heino] at hb
          have hpaths := h1.by_path_inj hb hbind
          have hname : e.name = name := push_segment_inj hpaths
          rw [hname] at hm'
          exact hnin hm'

/-- C8: for a known inode bound to a directory path whose listing the tree
reports (with duplicate-free child names), readdir replies the entry list
headed by "." and ".." (carrying the directory's own inode), followed by
exactly one entry per child whose node resolves — in order, carrying that
child's kind and an inode that is distinct from the other children's and
from the directory's own, stably recorded in the resulting table — while
children that fail to resolve are silently omitted and the reply is still a
success; the reply is the enumerated list starting at the caller's offset. -/
theorem C8_readdir_children (w : WnfsModel) (st : Inodes) (ino : Nat)
    (offset : Nat) (dirPath : List String) (names : List String)
    (hwf : st.WF)
    (hino : alookup st.inodes ino = some ⟨dirPath, ino⟩)
    (hdir : dirEntriesOf w dirPath = some names)
    (hnodup : names.Nodup) :
    (WnfsFuse.readdir w st ino offset).1
      = ReaddirReply.entries
          (((DirEntry.mk ino FileType.directory "."
              :: DirEntry.mk ino FileType.directory ".."
              :: (readdirChildren w dirPath names st).1).enum.drop offset).map
            (fun p => DirReplyEntry.mk p.2.ino (p.1 + 1) p.2.kind p.2.name))
    ∧ ((readdirChildren w dirPath names st).1.map DirEntry.name
        = names.filter (fun n => resolvesToNode (w.getNode (push_segment dirPath n))))
    ∧ (∀ e ∈ (readdirChildren w dirPath names st).1,
        ∃ node, w.getNode (push_segment dirPath e.name) = .ok (some node)
          ∧ e.kind = node.kind)
    ∧ ((readdirChildren w dirPath names st).1.map DirEntry.ino).Nodup
    ∧ (∀ e ∈ (readdirChildren w dirPath names st).1,
        e.ino ≠ ino
        ∧ alookup (WnfsFuse.readdir w st ino offset).2.by_path
            (push_segment dirPath e.name) = some e.ino) := by
  obtain ⟨h1, h2, h3, h4, h5, h6⟩ := readdirChildren_spec w dirPath names st hwf
  have hps : st.get_path_segments ino = some dirPath := by
    simp [Inodes.get_path_segments, Inodes.get, hino]
  have hred : WnfsFuse.readdir w st ino offset
      = (ReaddirReply.entries
          (((DirEntry.mk ino FileType.directory "."
              :: DirEntry.mk ino FileType.directory ".."
              :: (readdirChildren w dirPath names st).1).enum.drop offset).map
            (fun p => DirReplyEntry.mk p.2.ino (p.1 + 1) p.2.kind p.2.name)),
         (readdirChildren w dirPath names st).2) := by
    simp only [WnfsFuse.readdir, hps, hdir]
  have hdirbind : alookup (readdirChildren w dirPath names st).2.by_path dirPath
      = some ino := by
    apply h2
    exact (hwf.inode_consistent ino ⟨dirPath, ino⟩ hino).2
  rw [hred]
  refine ⟨rfl, h5, ?_, h6 hnodup, ?_⟩
  · intro e he
    obtain ⟨_, _, hn⟩ := h4 e he
    exact hn
  · intro e he
    obtain ⟨_, hb, _⟩ := h4 e he
    refine ⟨?_, hb⟩
    intro heq
    rw [heq] at hb
    exact push_segment_ne_self dirPath e.name (h1.by_path_inj hb hdirbind)

/-- C8 (witness): a root directory listing children "a" (a directory) and
"b" (a file): the reply holds ".", "..", then "a" and "b" with their kinds,
computed from offset 0. -/
theorem C8_readdir_witness :
    (WnfsFuse.readdir
        ⟨⟨⟨none, none⟩, ["a", "b"]⟩,
         fun p => if p = ["a"] then .ok (some (.dir ⟨none, none⟩ []))
           else if p = ["b"] then .ok (some (.file ⟨none, none⟩ 3 [1, 2, 3]))
           else .ok none⟩
        WnfsFuse.newInodes 1 0).1
      = ReaddirReply.entries
          (((DirEntry.mk 1 FileType.directory "."
              :: DirEntry.mk 1 FileType.directory ".."
              :: (readdirChildren
                  ⟨⟨⟨none, none⟩, ["a", "b"]⟩,
                   fun p => if p = ["a"] then .ok (some (.dir ⟨none, none⟩ []))
                     else if p = ["b"] then .ok (some (.file ⟨none, none⟩ 3 [1, 2, 3]))
                     else .ok none⟩
                  [] ["a", "b"] WnfsFuse.newInodes).1).enum.drop 0).map
            (fun p => DirReplyEntry.mk p.2.ino (p.1 + 1) p.2.kind p.2.name)) :=
  (C8_readdir_children
    ⟨⟨⟨none, none⟩, ["a", "b"]⟩,
     fun p => if p = ["a"] then .ok (some (.dir ⟨none, none⟩ []))
       else if p = ["b"] then .ok (some (.file ⟨none, none⟩ 3 [1, 2, 3]))
       else .ok none⟩
    WnfsFuse.newInodes 1 0 [] ["a", "b"] wf_newInodes (by decide) rfl (by decide)).1
